import Mathlib

/-!
Shallow embedding of the `systemtrader/orange` repository pieces that the
claims concern:

* `src/orange/Orange/ensemble/forest.py` — random-forest learner,
  classifier, out-of-bag permutation importance, and the random
  attribute-subset split constructor (namespace `Forest`);
* `src/Orange/testing/regression/xtest.py` — the regression-test harness
  (namespace `Xtest`);
* `src/orange/OrangeWidgets/OWDatabasesUpdate.py` — `sizeof_fmt`
  (namespace `Widgets`).

Python's `random.Random` is external library code; it is modelled as a
deterministic generator `Rng`: an arbitrary raw output stream together
with a position, where `getstate`/`setstate` capture and restore the
whole record.  `randrange(n)` consumes one raw output and reduces it
modulo `n`, and `shuffle` is the Fisher–Yates loop of CPython's
`random.shuffle` driven by the same stream.  All claims proved below
are independent of the concrete stream.

Floating-point numbers are modelled by `ℚ`; every arithmetic step the
claims mention (sums, division by a power of two, comparison against
1024) is exact on IEEE doubles in the ranges the claims quantify over,
so the rational model is faithful there.
-/

namespace Forest

/-- Model of a Python `random.Random` instance: a raw output stream and a
current position. `getstate`/`setstate` capture/restore the whole record. -/
structure Rng where
  stream : Nat → Nat
  pos : Nat

/-- Model of `rand.randrange(n)`: one raw draw reduced modulo `n` (for `n > 0` the
result is uniform over `range(n)` in CPython; here only determinism and the
range bound matter). -/
def Rng.randrange (r : Rng) (n : Nat) : Nat × Rng :=
  (r.stream r.pos % n, { r with pos := r.pos + 1 })

/-- Swap the entries at positions `i` and `j` of a list (no-op when either
index is out of range), as in `x[i], x[j] = x[j], x[i]`. -/
def listSwap (l : List α) (i j : Nat) : List α :=
  match l.get? i, l.get? j with
  | some a, some b => (l.set i b).set j a
  | _, _ => l

/-- The Fisher–Yates loop of CPython's `random.shuffle`:
`for i in reversed(xrange(1, len(x))): j = draw(i+1); swap x[i], x[j]`.
The argument `i` is the current position (counted down to `1`). -/
def shuffleGo : Nat → List α → Rng → List α × Rng
  | 0, l, r => (l, r)
  | i + 1, l, r =>
    let (j, r') := r.randrange (i + 2)
    shuffleGo i (listSwap l (i + 1) j) r'

/-- Model of `rand.shuffle(x)`: permute a list in place using Fisher–Yates. -/
def Rng.shuffle (r : Rng) (l : List α) : List α × Rng :=
  shuffleGo (l.length - 1) l r

/-- Model of `random.Random(seed)` — the seeded default generator.  The Mersenne
Twister stream itself is opaque library state; only that it is a fixed
deterministic function of the seed matters to the claims. -/
def randomRandom (seed : Nat) : Rng :=
  { stream := fun i => seed + i, pos := 0 }

/-- The bootstrap-drawing loop of `RandomForestLearner.__call__`:
`for j in range(k): selection.append(rand.randrange(n))`. -/
def drawSelection (n : Nat) : Nat → Rng → List Nat × Rng
  | 0, r => ([], r)
  | k + 1, r =>
    let (v, r1) := r.randrange n
    let (rest, r2) := drawSelection n k r1
    (v :: rest, r2)

/-- State of a `RandomForestLearner`: the tree count, the current mutable
generator `rand`, and `randstate`, the state captured at construction. -/
structure RFLearner where
  trees : Nat
  rand : Rng
  randstate : Rng

/-- Model of `RandomForestLearner.__init__(trees, ..., rand, ...)`: when `rand` is
`None`, use `random.Random(0)`; then `randstate = rand.getstate()`. -/
def RFLearner.init (trees : Nat) (rand : Option Rng) : RFLearner :=
  let r := match rand with
    | none => randomRandom 0
    | some r0 => r0
  { trees := trees, rand := r, randstate := r }

/-- A tree-induction learner as used by the forest: from the sampled data,
a weight and the shared generator it produces a classifier (of abstract
type `β`) and leaves the generator in a new state.  The concrete learner
(`_RandomForestTreeLearner` wrapping the C `TreeLearner`) is external
code; any deterministic function of this shape covers it. -/
def TreeInducer (α β : Type) : Type := List α → Nat → Rng → β × Rng

/-- The forest-building loop of `RandomForestLearner.__call__` (lines
114–124): per iteration draw a bootstrap selection of `n` indices, take
`data = instances.get_items_ref(selection)`, train one tree, and collect
it.  Returns the selections, the classifiers and the final generator. -/
def forestLoop [Inhabited α] (learner : TreeInducer α β) (instances : List α)
    (weight : Nat) (n : Nat) : Nat → Rng → List (List Nat) × List β × Rng
  | 0, r => ([], [], r)
  | t + 1, r =>
    let (sel, r1) := drawSelection n n r
    let data := sel.map (fun j => instances.getD j default)
    let (c, r2) := learner data weight r1
    let (sels, cls, r3) := forestLoop learner instances weight n t r2
    (sel :: sels, c :: cls, r3)

/-- Model of `RandomForestLearner.__call__(instances, weight)`: restore
`self.rand` to `self.randstate`, build `self.trees` trees from bootstrap
samples, and return the classifier list (the `RandomForestClassifier`'s
`classifiers` field) together with the updated learner state.  The
bootstrap selections are also returned so theorems can speak about them. -/
def RFLearner.call [Inhabited α] (L : RFLearner) (learner : TreeInducer α β)
    (instances : List α) (weight : Nat) :
    List (List Nat) × List β × RFLearner :=
  let r0 := L.randstate
  let (sels, cls, r') := forestLoop learner instances weight instances.length L.trees r0
  (sels, cls, { L with rand := r' })

/-- Model of `RandomForestClassifier.__call__`, discrete class, probability voting
(lines 181–184): start from `[0.]*k` and componentwise-add each tree's
class-probability distribution. -/
def sumDists (k : Nat) (dists : List (List ℚ)) : List ℚ :=
  dists.foldl (fun prob a => List.zipWith (· + ·) prob a) (List.replicate k (0 : ℚ))

/-- Lines 185–188: `norm = sum(prob); cprob[i] = prob[i]/norm`. -/
def probVote (k : Nat) (dists : List (List ℚ)) : List ℚ :=
  let prob := sumDists k dists
  let norm := prob.sum
  prob.map (· / norm)

/-- The componentwise average of the trees' distributions (the spec's
description of probability voting), for comparison with `probVote`. -/
def avgDists (k : Nat) (dists : List (List ℚ)) : List ℚ :=
  (sumDists k dists).map (· / (dists.length : ℚ))

/-- Lines 194–196: crisp vote counting, `cfreq[int(c(instance))] += 1`
starting from `[0]*k`; each tree contributes one vote for its predicted
class index. -/
def crispFreq (k : Nat) (votes : List Nat) : List Nat :=
  votes.foldl (fun cfreq v => cfreq.set v (cfreq.getD v 0 + 1)) (List.replicate k 0)

/-- Lines 197–198: `index = cfreq.index(max(cfreq))` — the first position
holding the maximal vote count is the predicted class index. -/
def crispVote (k : Nat) (votes : List Nat) : Nat :=
  let cfreq := crispFreq k votes
  cfreq.indexOf ((cfreq.max?).getD 0)

/-- Lines 218–220, continuous class: `sum(values) / len(self.classifiers)`
where `values` are the per-tree predicted values (one per classifier). -/
def contValueVote (values : List ℚ) : ℚ :=
  values.sum / (values.length : ℚ)

/-- Python truthiness of the `attributes` field: `not self.attributes` is
true when it is `None` or `0`. -/
def optFalsy : Option Nat → Bool
  | none => true
  | some a => a == 0

/-- Mutable state of a `SplitConstructor_AttributeSubset`: the number of
features to consider (`None` when unset at construction) and the shared
generator.  The wrapped split constructor `scons` is external C code;
only the candidate mask handed to it matters to the claims. -/
structure SplitCon where
  attributes : Option Nat
  rand : Rng

/-- Model of `SplitConstructor_AttributeSubset.__call__` (lines 460–470), up to the
call into the wrapped `scons`: if `attributes` is unset, set it to
`int(sqrt(len(candidates)))` (exact for the machine-integer sizes that
arise, so modelled by `Nat.sqrt`); build `cand = [1]*attributes +
[0]*(len(candidates)-attributes)`, shuffle it with the shared generator,
and pass it to `scons`.  Returns the mask passed on and the new state. -/
def SplitCon.call (s : SplitCon) (candidates : List γ) : List Nat × SplitCon :=
  let attrs := if optFalsy s.attributes then Nat.sqrt candidates.length
               else s.attributes.getD 0
  let cand := List.replicate attrs 1 ++ List.replicate (candidates.length - attrs) 0
  let (cand', r') := s.rand.shuffle cand
  (cand', { attributes := some attrs, rand := r' })

/-- A data instance as `ScoreFeature` observes it: attribute values and a
class value, both modelled as naturals with decidable equality. -/
structure Inst where
  attrVals : List Nat
  cls : Nat
deriving DecidableEq, Inhabited

/-- The tree structure as far as `_presentInTree` observes it: an interior
node carries the index of its split feature (`attrnum[node.branchSelector.
classVar.name]`) and its branches.  A `None` branch and a leaf both yield
the empty feature set in `_presentInTree`, so both are `leaf`. -/
inductive TNode where
  | leaf : TNode
  | node : Nat → List TNode → TNode

/-- A trained tree classifier as `_importanceAcu` uses it: the classifying
function `cla(el)` and the tree `cla.tree`. -/
structure TreeCls where
  fn : Inst → Nat
  tree : TNode

/-- The tree-induction learner `self.learner` called as `self.learner(data)`;
external code, modelled as an arbitrary deterministic function that may
consume randomness from the shared generator. -/
def ScoreLearner : Type := List Inst → Rng → TreeCls × Rng

mutual

/-- Model of `_presentInTree(node, attrnum)`: the set of feature indices on which
the tree splits. -/
def presentInTree : TNode → Finset Nat
  | .leaf => ∅
  | .node j br => presentInTreeList br ∪ {j}

/-- The fold over a node's branches in `_presentInTree`. -/
def presentInTreeList : List TNode → Finset Nat
  | [] => ∅
  | t :: ts => presentInTree t ∪ presentInTreeList ts

end

/-- Model of `presl = list(self._presentInTree(cla.tree, attrnum))`: a Python set
turned into a list; CPython's set iteration order is unspecified, modelled
here as ascending order of feature index. -/
def preslOf (t : TNode) : List Nat :=
  (presentInTree t).sort (· ≤ ·)

/-- Model of `_getOOB`, the index part:
`ooblist = filter(lambda x: x not in selection, range(nexamples))`. -/
def oobIndices (nexamples : Nat) (selection : List Nat) : List Nat :=
  (List.range nexamples).filter (fun x => x ∉ selection)

/-- Model of `_getOOB(instances, selection, nexamples)`:
`instances.getitems(ooblist)`. -/
def getOOB (instances : List Inst) (selection : List Nat) (nexamples : Nat) : List Inst :=
  (oobIndices nexamples selection).map (fun j => instances.getD j default)

/-- Model of `_numRight(oob, classifier)`:
`sum(1 for el in oob if el.getclass() == classifier(el))`. -/
def numRight (oob : List Inst) (c : TreeCls) : Nat :=
  oob.countP (fun el => el.cls == c.fn el)

/-- Model of `shuffle_ex(index)` inside `_numRightMix`: copy `oob[index]` and
overwrite feature `attr` with `oob[perm[index]][attr]`. -/
def shuffleEx (oob : List Inst) (perm : List Nat) (attr : Nat) (i : Nat) : Inst :=
  let ex := oob.getD i default
  { ex with attrVals :=
      ex.attrVals.set attr ((oob.getD (perm.getD i 0) default).attrVals.getD attr 0) }

/-- Model of `_numRightMix(oob, classifier, attr)`: shuffle `perm = range(len(oob))`
with the shared generator, then count the out-of-bag instances still
classified correctly with feature `attr`'s values permuted. -/
def numRightMix (oob : List Inst) (c : TreeCls) (attr : Nat) (r : Rng) : Nat × Rng :=
  let (perm, r') := r.shuffle (List.range oob.length)
  ((List.range oob.length).countP
      (fun i => (oob.getD i default).cls == c.fn (shuffleEx oob perm attr i)), r')

/-- The per-feature loop of `_importanceAcu` (lines 391–395):
`for attr in presl: rightimp = _numRightMix(...); avimp[attr] +=
(float(right-rightimp))/len(oob)`.  The division raises
`ZeroDivisionError` when the out-of-bag list is empty. -/
def impLoop (oob : List Inst) (c : TreeCls) (right : Nat) :
    List Nat → List ℚ → Rng → Except Unit (List ℚ × Rng)
  | [], avimp, r => .ok (avimp, r)
  | attr :: rest, avimp, r =>
    let (rightimp, r') := numRightMix oob c attr r
    if oob.length = 0 then .error ()
    else impLoop oob c right rest
      (avimp.set attr (avimp.getD attr 0 +
        ((right : ℚ) - (rightimp : ℚ)) / (oob.length : ℚ))) r'

/-- The bootstrap selection drawn at the top of one `_importanceAcu`
iteration (lines 373–375). -/
def stepSel (instances : List Inst) (r : Rng) : List Nat × Rng :=
  drawSelection instances.length instances.length r

/-- Model of `cla = self.learner(data)` with `data = instances.getitems(selection)`
(lines 376–379). -/
def stepCla (learner : ScoreLearner) (instances : List Inst) (r : Rng) : TreeCls × Rng :=
  learner ((stepSel instances r).1.map (fun j => instances.getD j default))
    (stepSel instances r).2

/-- Model of `oob = self._getOOB(instances, selection, n)` (line 382). -/
def stepOOB (instances : List Inst) (r : Rng) : List Inst :=
  getOOB instances (stepSel instances r).1 instances.length

/-- One iteration of the tree loop of `_importanceAcu` (lines 371–395). -/
def importanceTreeStep (learner : ScoreLearner) (instances : List Inst)
    (avimp : List ℚ) (r : Rng) : Except Unit (List ℚ × Rng) :=
  let (cla, r2) := stepCla learner instances r
  let oob := stepOOB instances r
  let right := numRight oob cla
  let presl := preslOf cla.tree
  impLoop oob cla right presl avimp r2

/-- The tree loop `for i in range(trees)` of `_importanceAcu`. -/
def importanceLoop (learner : ScoreLearner) (instances : List Inst) :
    Nat → List ℚ → Rng → Except Unit (List ℚ × Rng)
  | 0, avimp, r => .ok (avimp, r)
  | t + 1, avimp, r =>
    match importanceTreeStep learner instances avimp r with
    | .error e => .error e
    | .ok (avimp', r') => importanceLoop learner instances t avimp' r'

/-- Model of `_importanceAcu(instances, trees, avimp)` including the trailing
`self._acu += trees` (line 396), which only executes when no iteration
raised.  The relevant `ScoreFeature` state is `(avimp, _acu, rand)`. -/
def importanceAcu (learner : ScoreLearner) (instances : List Inst) (trees : Nat)
    (avimp : List ℚ) (acu : Nat) (r : Rng) : Except Unit (List ℚ × Nat × Rng) :=
  match importanceLoop learner instances trees avimp r with
  | .error e => .error e
  | .ok (avimp', r') => .ok (avimp', acu + trees, r')

end Forest

namespace Xtest

/-- Model of `states = ["OK", "changed", "random", "error", "crash"]` (line 14 of
`xtest.py`). -/
def states : List String := ["OK", "changed", "random", "error", "crash"]

/-- Python's `str.rstrip()`: remove trailing whitespace. -/
def rstrip (s : String) : String :=
  String.mk ((s.data.reverse.dropWhile (fun c => c.isWhitespace)).reverse)

/-- Line 134: `open("xtest1_report", "rt").readline().rstrip() or "crash"`.
The argument is the report file's first line when the file exists, `none`
when it is missing — in which case `open` raises `IOError` (the error
case) before any outcome is produced; an existing file whose first line
rstrips to the empty string yields `"crash"` through Python's `or`. -/
def readOutcome : Option String → Except Unit String
  | none => .error ()
  | some line =>
    let r := rstrip line
    .ok (if r = "" then "crash" else r)

/-- Model of `states.index(result)` (line 135): position of `result` in the state
list; raises `ValueError` when absent. -/
def stateIndex (result : String) : Except Unit Nat :=
  if result ∈ states then .ok (states.indexOf result) else .error ()

/-- Lines 134–136 for one script: classify the report into an outcome and
fold it into the global status via
`error_status = max(error_status, states.index(result))`. -/
def processReport (errorStatus : Nat) (report : Option String) :
    Except Unit (Nat × String) :=
  match readOutcome report with
  | .error e => .error e
  | .ok result =>
    match stateIndex result with
    | .error e => .error e
    | .ok idx => .ok (max errorStatus idx, result)

/-- The sequential processing of the scripts of a run: thread
`error_status` through each script's report in order, collecting the
outcomes. -/
def processScripts (errorStatus : Nat) :
    List (Option String) → Except Unit (Nat × List String)
  | [] => .ok (errorStatus, [])
  | rep :: reps =>
    match processReport errorStatus rep with
    | .error e => .error e
    | .ok (es', result) =>
      match processScripts es' reps with
      | .error e => .error e
      | .ok (esFinal, results) => .ok (esFinal, result :: results)

/-- Model of `"%s/%s.%s.%s.%s.txt" % (outputsdir, name, platform, pyversion, state)`
(lines 77–78 and 126–127): the persisted result-file naming scheme. -/
def resultFile (outputsdir name platform pyversion state : String) : String :=
  outputsdir ++ "/" ++ name ++ "." ++ platform ++ "." ++ pyversion ++ "." ++
    state ++ ".txt"

/-- Lines 74–89, the branch taken when a previous result for the script is
available: test each state's result file in the fixed order of `states`
and take the first that exists; otherwise fall back to `"random"` when a
`.random1` file exists, to `"OK"` when `complete` or `just_print` is set,
and to skipping the script (`none`) otherwise. -/
def lastState (fs : List String) (outputsdir name platform pyversion : String)
    (complete justPrint : Bool) : Option String :=
  match states.find? (fun st => resultFile outputsdir name platform pyversion st ∈ fs) with
  | some st => some st
  | none =>
    if resultFile outputsdir name platform pyversion "random1" ∈ fs then some "random"
    else if complete || justPrint then some "OK"
    else none

/-- Lines 125–129: the states whose result files are removed before a
script is re-run. -/
def removalStates : List String :=
  ["crash", "error", "new", "changed", "random1", "random2"]

/-- The effect of the removal loop (lines 125–129) on the set of existing
files: every result file of the script for one of `removalStates` is
removed, nothing else is. -/
def removeOldResults (fs : List String)
    (outputsdir name platform pyversion : String) : List String :=
  fs.filter (fun f =>
    f ∉ removalStates.map (resultFile outputsdir name platform pyversion))

end Xtest

namespace Widgets

/-- The unit list of `sizeof_fmt` in `OWDatabasesUpdate.py`. -/
def unitNames : List String := ["bytes", "KB", "MB", "GB", "TB"]

/-- The loop body of `sizeof_fmt`: try each unit in order, returning as
soon as the successively divided value drops below `1024.0`, else divide
by `1024.0` and continue; falling off the loop returns Python `None`. -/
def sizeofFmtGo (num : ℚ) : List String → Option (ℚ × String)
  | [] => none
  | x :: xs => if num < 1024 then some (num, x) else sizeofFmtGo (num / 1024) xs

/-- Model of `sizeof_fmt(num)` (lines 8–12).  Numbers are modelled by `ℚ`: in the
ranges the claims quantify over (integers below `2^53`, divisions by the
power of two `1024`) IEEE-double arithmetic is exact, so the rational
model is faithful.  The `"%3.1f %s"`/`"%1.0f %s"` string interpolation is
abstracted to the pair of the numeric value and the unit name. -/
def sizeof_fmt (num : ℚ) : Option (ℚ × String) :=
  sizeofFmtGo num unitNames

end Widgets

namespace Forest

theorem drawSelection_length (n : Nat) :
    ∀ (k : Nat) (r : Rng), (drawSelection n k r).1.length = k := by
  intro k
  induction k with
  | zero => intro r; rfl
  | succ k ih =>
    intro r
    simp [drawSelection, ih]

theorem drawSelection_lt (n : Nat) (hn : 0 < n) :
    ∀ (k : Nat) (r : Rng), ∀ v ∈ (drawSelection n k r).1, v < n := by
  intro k
  induction k with
  | zero => intro r v hv; simp [drawSelection] at hv
  | succ k ih =>
    intro r v hv
    simp only [drawSelection, List.mem_cons] at hv
    rcases hv with h | h
    · subst h
      exact Nat.mod_lt _ hn
    · exact ih _ v h

theorem forestLoop_lengths [Inhabited α] (learner : TreeInducer α β)
    (instances : List α) (weight n : Nat) :
    ∀ (t : Nat) (r : Rng),
      (forestLoop learner instances weight n t r).1.length = t ∧
      (forestLoop learner instances weight n t r).2.1.length = t := by
  intro t
  induction t with
  | zero => intro r; exact ⟨rfl, rfl⟩
  | succ t ih =>
    intro r
    simp only [forestLoop]
    constructor
    · simp [(ih _).1]
    · simp [(ih _).2]

theorem forestLoop_sel_spec [Inhabited α] (learner : TreeInducer α β)
    (instances : List α) (weight n : Nat) :
    ∀ (t : Nat) (r : Rng), ∀ s ∈ (forestLoop learner instances weight n t r).1,
      s.length = n ∧ ∀ v ∈ s, v < n := by
  intro t
  induction t with
  | zero => intro r s hs; simp [forestLoop] at hs
  | succ t ih =>
    intro r s hs
    simp only [forestLoop, List.mem_cons] at hs
    rcases hs with h | h
    · subst h
      refine ⟨drawSelection_length n n _, ?_⟩
      rcases Nat.eq_zero_or_pos n with hn | hn
      · subst hn
        intro v hv
        simp [drawSelection] at hv
      · exact drawSelection_lt n hn n _
    · exact ih _ s h

/-- C1.  Determinism under seeding: `__init__` with `rand=None` installs
`random.Random(0)`, the supplied (or default) generator's state is
captured in `randstate` at construction, and since `__call__` restores
`self.rand` to `randstate` before drawing, calling the learner twice on
the same instances and weight (the second call on the state left by the
first) yields the identical sequence of bootstrap index selections and
the identical list of trained tree classifiers. -/
theorem randomForest_deterministic [Inhabited α] (learner : TreeInducer α β)
    (L : RFLearner) (instances : List α) (weight : Nat) :
    (∀ (t : Nat), (RFLearner.init t none).rand = randomRandom 0) ∧
    (∀ (t : Nat) (r : Option Rng), (RFLearner.init t r).randstate = (RFLearner.init t r).rand) ∧
    (L.call learner instances weight).1 =
      ((L.call learner instances weight).2.2.call learner instances weight).1 ∧
    (L.call learner instances weight).2.1 =
      ((L.call learner instances weight).2.2.call learner instances weight).2.1 := by
  refine ⟨fun t => rfl, fun t r => rfl, ?_, ?_⟩ <;> rfl

/-- C1 witness: a two-instance dataset and a single-tree learner whose
repeated call yields the identical bootstrap selections. -/
theorem randomForest_deterministic_witness :
    ((RFLearner.mk 1 (Rng.mk (fun _ => 0) 0) (Rng.mk (fun _ => 0) 0)).call
        (fun _ _ r => ((0 : Nat), r)) [7, 8] 0).1 =
      (((RFLearner.mk 1 (Rng.mk (fun _ => 0) 0) (Rng.mk (fun _ => 0) 0)).call
        (fun _ _ r => ((0 : Nat), r)) [7, 8] 0).2.2.call
          (fun _ _ r => ((0 : Nat), r)) [7, 8] 0).1 :=
  (randomForest_deterministic (fun _ _ r => ((0 : Nat), r))
    (RFLearner.mk 1 (Rng.mk (fun _ => 0) 0) (Rng.mk (fun _ => 0) 0)) [7, 8] 0).2.2.1

/-- C2.  `RandomForestLearner.__call__` on `n` instances performs exactly
`trees` iterations, each drawing a bootstrap selection of exactly `n`
indices with every index produced by `rand.randrange(n)` (hence `< n`),
and the returned classifier holds exactly `trees` tree classifiers. -/
theorem randomForest_bootstrap_counts [Inhabited α] (learner : TreeInducer α β)
    (L : RFLearner) (instances : List α) (weight : Nat) :
    (L.call learner instances weight).1.length = L.trees ∧
    (L.call learner instances weight).2.1.length = L.trees ∧
    ∀ s ∈ (L.call learner instances weight).1,
      s.length = instances.length ∧ ∀ v ∈ s, v < instances.length := by
  refine ⟨?_, ?_, ?_⟩
  · exact (forestLoop_lengths learner instances weight instances.length L.trees _).1
  · exact (forestLoop_lengths learner instances weight instances.length L.trees _).2
  · exact forestLoop_sel_spec learner instances weight instances.length L.trees _

/-- C2 witness: a one-tree forest over two instances draws the bootstrap
selection `[0, 0]`, of length 2 with every index below 2. -/
theorem randomForest_bootstrap_counts_witness :
    ([0, 0] : List Nat).length = ([7, 8] : List Nat).length ∧
    ∀ v ∈ ([0, 0] : List Nat), v < ([7, 8] : List Nat).length :=
  (randomForest_bootstrap_counts (fun _ _ r => ((0 : Nat), r))
    (RFLearner.mk 1 (Rng.mk (fun _ => 0) 0) (Rng.mk (fun _ => 0) 0))
    [7, 8] 0).2.2 [0, 0] (by decide)

theorem zipWith_add_sum (p a : List ℚ) (h : p.length = a.length) :
    (List.zipWith (· + ·) p a).sum = p.sum + a.sum := by
  induction p generalizing a with
  | nil =>
    cases a with
    | nil => simp
    | cons x xs => simp at h
  | cons x xs ih =>
    cases a with
    | nil => simp at h
    | cons y ys =>
      simp only [List.length_cons, Nat.add_right_cancel_iff] at h
      simp only [List.zipWith_cons_cons, List.sum_cons, ih ys h]
      ring

theorem sumDists_go (dists : List (List ℚ)) :
    ∀ (p : List ℚ), (∀ d ∈ dists, d.length = p.length) →
      (dists.foldl (fun prob a => List.zipWith (· + ·) prob a) p).length = p.length ∧
      (dists.foldl (fun prob a => List.zipWith (· + ·) prob a) p).sum =
        p.sum + (dists.map List.sum).sum := by
  induction dists with
  | nil => intro p _; simp
  | cons d ds ih =>
    intro p hlen
    have hd : d.length = p.length := hlen d (List.mem_cons_self d ds)
    have hzl : (List.zipWith (· + ·) p d).length = p.length := by
      simp [List.length_zipWith, hd]
    have hrest : ∀ e ∈ ds, e.length = (List.zipWith (· + ·) p d).length := by
      intro e he
      rw [hzl]
      exact hlen e (List.mem_cons_of_mem d he)
    obtain ⟨hl, hs⟩ := ih (List.zipWith (· + ·) p d) hrest
    refine ⟨by simpa [hzl] using hl, ?_⟩
    simp only [List.foldl_cons] at *
    rw [hs, zipWith_add_sum p d hd.symm, List.map_cons, List.sum_cons]
    ring

theorem sum_map_div (l : List ℚ) (c : ℚ) : (l.map (· / c)).sum = l.sum / c := by
  induction l with
  | nil => simp
  | cons x xs ih => simp [ih, add_div]

/-- C3.  Inference averages across all trees.  Continuous class, value
request: the result is the sum of the per-tree predicted values divided
by the number of classifiers.  Discrete class, probability request: the
result is the componentwise sum of the trees' distributions normalized
to total `1`, and when every tree's distribution has the right length
and sums to `1` (and there is at least one tree) it equals the
componentwise average of the trees' distributions. -/
theorem forest_inference_averages (k : Nat) (dists : List (List ℚ)) (values : List ℚ)
    (hlen : ∀ d ∈ dists, d.length = k) (hsum : ∀ d ∈ dists, d.sum = 1)
    (hne : dists ≠ []) :
    contValueVote values = values.sum / (values.length : ℚ) ∧
    (probVote k dists).sum = 1 ∧
    probVote k dists = avgDists k dists := by
  have hlen' : ∀ d ∈ dists, d.length = (List.replicate k (0 : ℚ)).length := by
    intro d hd; simpa using hlen d hd
  obtain ⟨_, hs⟩ := sumDists_go dists (List.replicate k (0 : ℚ)) hlen'
  have hmaps : (dists.map List.sum).sum = (dists.length : ℚ) := by
    have : dists.map List.sum = dists.map (fun _ => (1 : ℚ)) := by
      apply List.map_congr_left
      intro d hd; exact hsum d hd
    rw [this]
    simp [List.sum_replicate, List.map_const]
  have hnorm : (sumDists k dists).sum = (dists.length : ℚ) := by
    rw [sumDists] at *
    rw [hs, hmaps]
    simp
  have hlpos : dists.length ≠ 0 := by
    intro h0
    exact hne (List.length_eq_zero.mp h0)
  have hnormne : (sumDists k dists).sum ≠ 0 := by
    rw [hnorm]
    exact_mod_cast hlpos
  refine ⟨rfl, ?_, ?_⟩
  · rw [probVote, sum_map_div, div_self hnormne]
  · rw [probVote, avgDists, hnorm]

/-- C3 witness at a concrete input: two trees over two classes. -/
theorem forest_inference_averages_witness :
    (probVote 2 [[1, 0], [0, 1]]).sum = 1 ∧
    probVote 2 [[1, 0], [0, 1]] = avgDists 2 [[1, 0], [0, 1]] :=
  ⟨(forest_inference_averages 2 [[1, 0], [0, 1]] [1]
      (by simp) (by simp) (by simp)).2.1,
   (forest_inference_averages 2 [[1, 0], [0, 1]] [1]
      (by simp) (by simp) (by simp)).2.2⟩

theorem crispFreq_go_length (votes : List Nat) :
    ∀ (init : List Nat),
      (votes.foldl (fun cfreq v => cfreq.set v (cfreq.getD v 0 + 1)) init).length =
        init.length := by
  induction votes with
  | nil => intro init; rfl
  | cons v vs ih =>
    intro init
    simp only [List.foldl_cons]
    rw [ih]
    simp

theorem crispFreq_go_count (votes : List Nat) :
    ∀ (init : List Nat) (c : Nat), c < init.length → (∀ v ∈ votes, v < init.length) →
      (votes.foldl (fun cfreq v => cfreq.set v (cfreq.getD v 0 + 1)) init).getD c 0 =
        init.getD c 0 + votes.count c := by
  induction votes with
  | nil => intro init c _ _; simp
  | cons v vs ih =>
    intro init c hc hv
    have hvlt : v < init.length := hv v (List.mem_cons_self v vs)
    have hrest : ∀ w ∈ vs, w < (init.set v (init.getD v 0 + 1)).length := by
      intro w hw
      simpa using hv w (List.mem_cons_of_mem v hw)
    simp only [List.foldl_cons]
    rw [ih (init.set v (init.getD v 0 + 1)) c (by simpa using hc) hrest]
    by_cases hcv : c = v
    · subst hcv
      have : (init.set c (init.getD c 0 + 1)).getD c 0 = init.getD c 0 + 1 := by
        simp [List.getD_eq_getElem?_getD, List.getElem?_set_self hvlt,
          List.getElem?_eq_getElem hvlt]
      rw [this, List.count_cons_self]
      omega
    · have : (init.set v (init.getD v 0 + 1)).getD c 0 = init.getD c 0 := by
        simp [List.getD_eq_getElem?_getD, List.getElem?_set_ne (Ne.symm hcv)]
      rw [this, List.count_cons_of_ne hcv]

theorem crispFreq_length (k : Nat) (votes : List Nat) :
    (crispFreq k votes).length = k := by
  rw [crispFreq, crispFreq_go_length]
  simp

theorem crispFreq_count (k : Nat) (votes : List Nat) (c : Nat) (hc : c < k)
    (hv : ∀ v ∈ votes, v < k) :
    (crispFreq k votes).getD c 0 = votes.count c := by
  rw [crispFreq, crispFreq_go_count votes (List.replicate k 0) c (by simpa using hc)
    (by simpa using hv)]
  simp [hc]

/-- C8.  Discrete class, value request: the returned class index is the
first position of the maximal crisp per-tree vote count — each tree
contributes one vote for its predicted class, the class frequency vector
is exactly the vote count of each class, the chosen index attains the
maximum, and every smaller index has a strictly smaller count (ties are
broken toward the smallest index). -/
theorem forest_crisp_vote_argmax (k : Nat) (votes : List Nat) (hk : 0 < k)
    (hv : ∀ v ∈ votes, v < k) :
    (∀ c, c < k → (crispFreq k votes).getD c 0 = votes.count c) ∧
    crispVote k votes < k ∧
    (∀ c, c < k → (crispFreq k votes).getD c 0 ≤
      (crispFreq k votes).getD (crispVote k votes) 0) ∧
    (∀ j, j < crispVote k votes →
      (crispFreq k votes).getD j 0 < (crispFreq k votes).getD (crispVote k votes) 0) := by
  set cfreq := crispFreq k votes with hcf
  have hlen : cfreq.length = k := crispFreq_length k votes
  have hne : cfreq ≠ [] := by
    intro h
    rw [h] at hlen
    simp at hlen
    omega
  obtain ⟨m, hm⟩ : ∃ m, cfreq.max? = some m := by
    cases h : cfreq.max? with
    | none => exact absurd (List.max?_eq_none_iff.mp h) hne
    | some m => exact ⟨m, rfl⟩
  have hmax := List.max?_eq_some_iff (α := Nat) Nat.le_refl max_choice
    (fun a b c => Nat.max_le) |>.mp hm
  obtain ⟨hmem, hle⟩ := hmax
  have hgd : (cfreq.max?).getD 0 = m := by rw [hm]; rfl
  have hidx : crispVote k votes = cfreq.indexOf m := by
    rw [crispVote, ← hcf, hgd]
  have hlt : cfreq.indexOf m < cfreq.length := List.indexOf_lt_length.mpr hmem
  have hget : cfreq[cfreq.indexOf m] = m := List.getElem_indexOf hlt
  have hvote_lt : crispVote k votes < k := by
    rw [hidx, ← hlen]; exact hlt
  have hvote_val : cfreq.getD (crispVote k votes) 0 = m := by
    rw [hidx, List.getD_eq_getElem?_getD, List.getElem?_eq_getElem hlt, hget]
    rfl
  refine ⟨fun c hc => crispFreq_count k votes c hc hv, hvote_lt, ?_, ?_⟩
  · intro c hc
    rw [hvote_val]
    have : c < cfreq.length := by omega
    have := hle cfreq[c] (List.getElem_mem this)
    rw [List.getD_eq_getElem?_getD, List.getElem?_eq_getElem ‹c < cfreq.length›]
    simpa using this
  · intro j hj
    rw [hvote_val]
    have hjlt : j < cfreq.length := by
      have := hvote_lt
      omega
    have hne' : cfreq[j] ≠ m := by
      have hfi : j < cfreq.findIdx (fun x => x == m) := by
        rw [hidx] at hj
        exact hj
      have := List.not_of_lt_findIdx hfi
      simpa using this
    have hlem : cfreq[j] ≤ m := hle _ (List.getElem_mem hjlt)
    rw [List.getD_eq_getElem?_getD, List.getElem?_eq_getElem hjlt]
    simp only [Option.getD_some]
    omega

/-- C8 witness: three trees voting over three classes, with a tie between
classes 0 and 2 broken toward class 0. -/
theorem forest_crisp_vote_argmax_witness :
    crispVote 3 [2, 0, 2, 0] < 3 ∧
    (∀ j, j < crispVote 3 [2, 0, 2, 0] →
      (crispFreq 3 [2, 0, 2, 0]).getD j 0 <
        (crispFreq 3 [2, 0, 2, 0]).getD (crispVote 3 [2, 0, 2, 0]) 0) :=
  ⟨(forest_crisp_vote_argmax 3 [2, 0, 2, 0] (by decide) (by decide)).2.1,
   (forest_crisp_vote_argmax 3 [2, 0, 2, 0] (by decide) (by decide)).2.2.2⟩

theorem count_listSwap [DecidableEq α] (l : List α) (i j : Nat) (x : α) :
    (listSwap l i j).count x = l.count x := by
  cases hi : l[i]? with
  | none => simp [listSwap, hi]
  | some a =>
    cases hj : l[j]? with
    | none => simp [listSwap, hi, hj]
    | some b =>
      have hswap : listSwap l i j = (l.set i b).set j a := by
        simp [listSwap, hi, hj]
      have hil : i < l.length := by
        by_contra h
        rw [List.getElem?_eq_none (by omega)] at hi
        exact Option.noConfusion hi
      have hjl : j < l.length := by
        by_contra h
        rw [List.getElem?_eq_none (by omega)] at hj
        exact Option.noConfusion hj
      have ha : l[i] = a := by
        rw [List.getElem?_eq_getElem hil] at hi
        exact Option.some.inj hi
      have hb : l[j] = b := by
        rw [List.getElem?_eq_getElem hjl] at hj
        exact Option.some.inj hj
      have hjl' : j < (l.set i b).length := by simp [hjl]
      have hmid : (l.set i b)[j] = l[j] := by
        rw [List.getElem_set]
        by_cases hij : i = j
        · subst hij
          simp [hb]
        · simp [hij]
      rw [hswap, List.count_set a x (l.set i b) j hjl',
        List.count_set b x l i hil, hmid]
      have hc1 : (if l[i] == x then 1 else 0) ≤ l.count x := by
        by_cases h : l[i] = x
        · subst h
          have hmm := List.count_pos_iff.mpr (List.getElem_mem hil)
          simp only [beq_self_eq_true, if_true]
          omega
        · simp [h]
      have hbx : (b == x) = (l[j] == x) := by rw [hb]
      have hax : (a == x) = (l[i] == x) := by rw [ha]
      rw [hbx, hax]
      cases hb1 : (l[i] == x) <;> cases hb2 : (l[j] == x) <;>
        simp only [hb1, hb2, if_true, if_false, Bool.false_eq_true, Nat.add_zero,
          Nat.sub_zero] at hc1 ⊢ <;> omega

theorem count_shuffleGo [DecidableEq α] (x : α) :
    ∀ (i : Nat) (l : List α) (r : Rng), ((shuffleGo i l r).1).count x = l.count x := by
  intro i
  induction i with
  | zero => intro l r; rfl
  | succ i ih =>
    intro l r
    rw [shuffleGo, ih, count_listSwap]

theorem length_listSwap (l : List α) (i j : Nat) : (listSwap l i j).length = l.length := by
  rw [listSwap]
  cases l.get? i <;> cases l.get? j <;> simp

theorem length_shuffleGo :
    ∀ (i : Nat) (l : List α) (r : Rng), ((shuffleGo i l r).1).length = l.length := by
  intro i
  induction i with
  | zero => intro l r; rfl
  | succ i ih =>
    intro l r
    rw [shuffleGo, ih, length_listSwap]

theorem count_shuffle [DecidableEq α] (r : Rng) (l : List α) (x : α) :
    ((r.shuffle l).1).count x = l.count x :=
  count_shuffleGo x (l.length - 1) l r

theorem length_shuffle (r : Rng) (l : List α) :
    ((r.shuffle l).1).length = l.length :=
  length_shuffleGo (l.length - 1) l r

theorem splitCall_eq (s : SplitCon) (candidates : List γ) (attrs : Nat)
    (hattrs : (if optFalsy s.attributes then Nat.sqrt candidates.length
      else s.attributes.getD 0) = attrs) :
    s.call candidates =
      ((s.rand.shuffle (List.replicate attrs 1 ++
          List.replicate (candidates.length - attrs) 0)).1,
       { attributes := some attrs,
         rand := (s.rand.shuffle (List.replicate attrs 1 ++
           List.replicate (candidates.length - attrs) 0)).2 }) := by
  rw [SplitCon.call, hattrs]

theorem mask_count (n attrs : Nat) :
    (List.replicate attrs 1 ++ List.replicate (n - attrs) (0 : Nat)).count 1 = attrs := by
  rw [List.count_append, List.count_replicate, List.count_replicate]
  simp

theorem mask_length (n attrs : Nat) (h : attrs ≤ n) :
    (List.replicate attrs 1 ++ List.replicate (n - attrs) (0 : Nat)).length = n := by
  simp only [List.length_append, List.length_replicate]
  omega

theorem mask_mem (n attrs : Nat) (r : Rng)
    (x : Nat) (hx : x ∈ (r.shuffle (List.replicate attrs 1 ++
      List.replicate (n - attrs) (0 : Nat))).1) : x = 0 ∨ x = 1 := by
  have hpos := List.count_pos_iff.mpr hx
  rw [count_shuffle] at hpos
  have hmem := List.count_pos_iff.mp hpos
  rw [List.mem_append] at hmem
  rcases hmem with h | h
  · right; exact List.eq_of_mem_replicate h
  · left; exact List.eq_of_mem_replicate h

/-- C5.  `SplitConstructor_AttributeSubset.__call__` hands the wrapped
split constructor a 0/1 mask of the same length as `candidates` with
exactly `attributes` ones (a randomly shuffled eligibility mask),
provided `attributes ≤ len(candidates)`; when `attributes` is unset
(`None` or `0`) it is first set to `int(sqrt(len(candidates)))`, and as
long as the candidate list was nonempty (so the stored square root is
nonzero) every subsequent call leaves the stored value unchanged. -/
theorem split_subset_mask (s : SplitCon) (candidates : List γ) :
    (∀ a, s.attributes = some a → a ≠ 0 → a ≤ candidates.length →
      ((s.call candidates).1.count 1 = a ∧
       (s.call candidates).1.length = candidates.length ∧
       (∀ x ∈ (s.call candidates).1, x = 0 ∨ x = 1) ∧
       (s.call candidates).2.attributes = some a)) ∧
    (optFalsy s.attributes = true →
      ((s.call candidates).1.count 1 = Nat.sqrt candidates.length ∧
       (s.call candidates).1.length = candidates.length ∧
       (∀ x ∈ (s.call candidates).1, x = 0 ∨ x = 1) ∧
       (s.call candidates).2.attributes = some (Nat.sqrt candidates.length))) ∧
    (0 < candidates.length → optFalsy s.attributes = true →
      ∀ (candidates2 : List γ),
        ((s.call candidates).2.call candidates2).2.attributes =
          some (Nat.sqrt candidates.length)) := by
  refine ⟨?_, ?_, ?_⟩
  · intro a hsa ha0 hale
    have hfal : optFalsy s.attributes = false := by
      rw [hsa, optFalsy]
      simpa using ha0
    have heq := splitCall_eq s candidates a (by rw [hfal, hsa]; simp)
    rw [heq]
    refine ⟨?_, ?_, ?_, rfl⟩
    · rw [count_shuffle]
      exact mask_count candidates.length a
    · rw [length_shuffle]
      exact mask_length candidates.length a hale
    · intro x hx
      exact mask_mem candidates.length a s.rand x hx
  · intro hfal
    have heq := splitCall_eq s candidates (Nat.sqrt candidates.length) (by rw [hfal]; simp)
    rw [heq]
    refine ⟨?_, ?_, ?_, rfl⟩
    · rw [count_shuffle]
      exact mask_count candidates.length _
    · rw [length_shuffle]
      exact mask_length candidates.length _ (Nat.sqrt_le_self _)
    · intro x hx
      exact mask_mem candidates.length _ s.rand x hx
  · intro hpos hfal candidates2
    have heq := splitCall_eq s candidates (Nat.sqrt candidates.length) (by rw [hfal]; simp)
    have hsq : Nat.sqrt candidates.length ≠ 0 := by
      have := Nat.sqrt_pos.mpr hpos
      omega
    rw [heq]
    have hfal2 : optFalsy (some (Nat.sqrt candidates.length)) = false := by
      rw [optFalsy]
      simpa using hsq
    have heq2 := splitCall_eq
      (SplitCon.mk (some (Nat.sqrt candidates.length))
        ((s.rand.shuffle (List.replicate (Nat.sqrt candidates.length) 1 ++
          List.replicate (candidates.length - Nat.sqrt candidates.length) 0)).2))
      candidates2 (Nat.sqrt candidates.length) (by rw [hfal2]; simp)
    rw [heq2]

theorem getD_set_self' (l : List ℚ) (a : Nat) (v : ℚ) (h : a < l.length) :
    (l.set a v).getD a 0 = v := by
  simp [List.getD_eq_getElem?_getD, List.getElem?_set_self h]

theorem getD_set_ne' (l : List ℚ) (a b : Nat) (v : ℚ) (h : b ≠ a) :
    (l.set b v).getD a 0 = l.getD a 0 := by
  simp [List.getD_eq_getElem?_getD, List.getElem?_set_ne h]

theorem oobIndices_mem (nexamples : Nat) (selection : List Nat) (x : Nat) :
    x ∈ oobIndices nexamples selection ↔ x < nexamples ∧ x ∉ selection := by
  simp [oobIndices, List.mem_filter, List.mem_range]

theorem impLoop_spec (oob : List Inst) (c : TreeCls) (right : Nat) :
    ∀ (attrs : List Nat) (avimp : List ℚ) (r : Rng),
      attrs.Nodup → oob ≠ [] → (∀ a ∈ attrs, a < avimp.length) →
      ∃ avimp' r', impLoop oob c right attrs avimp r = .ok (avimp', r') ∧
        avimp'.length = avimp.length ∧
        (∀ a, a ∉ attrs → avimp'.getD a 0 = avimp.getD a 0) ∧
        (∀ a ∈ attrs, ∃ rs : Rng,
          avimp'.getD a 0 = avimp.getD a 0 +
            ((right : ℚ) - ((numRightMix oob c a rs).1 : ℚ)) / (oob.length : ℚ)) := by
  intro attrs
  induction attrs with
  | nil =>
    intro avimp r _ _ _
    exact ⟨avimp, r, rfl, rfl, fun a _ => rfl, fun a ha => absurd ha (List.not_mem_nil a)⟩
  | cons attr rest ih =>
    intro avimp r hnodup hoob hbound
    have hlen0 : oob.length ≠ 0 := fun h => hoob (List.length_eq_zero.mp h)
    have hattr_lt : attr < avimp.length := hbound attr (List.mem_cons_self _ _)
    obtain ⟨hattr_nin, hnodup'⟩ := List.nodup_cons.mp hnodup
    have hstep : impLoop oob c right (attr :: rest) avimp r =
        impLoop oob c right rest
          (avimp.set attr (avimp.getD attr 0 +
            ((right : ℚ) - ((numRightMix oob c attr r).1 : ℚ)) / (oob.length : ℚ)))
          (numRightMix oob c attr r).2 := by
      rw [impLoop]
      simp [hlen0]
    set avimp2 := avimp.set attr (avimp.getD attr 0 +
      ((right : ℚ) - ((numRightMix oob c attr r).1 : ℚ)) / (oob.length : ℚ)) with havimp2
    have hbound2 : ∀ a ∈ rest, a < avimp2.length := by
      intro a ha
      rw [havimp2, List.length_set]
      exact hbound a (List.mem_cons_of_mem attr ha)
    obtain ⟨avimp', r'', heq, hlen, hnm, hm⟩ :=
      ih avimp2 (numRightMix oob c attr r).2 hnodup' hoob hbound2
    refine ⟨avimp', r'', by rw [hstep]; exact heq, ?_, ?_, ?_⟩
    · rw [hlen, havimp2, List.length_set]
    · intro a ha
      have ha1 : a ≠ attr := fun h => ha (h ▸ List.mem_cons_self attr rest)
      have ha2 : a ∉ rest := fun h => ha (List.mem_cons_of_mem attr h)
      rw [hnm a ha2, havimp2, getD_set_ne' avimp a attr _ (Ne.symm ha1)]
    · intro a ha
      rcases List.mem_cons.mp ha with h | h
      · subst h
        refine ⟨r, ?_⟩
        rw [hnm a hattr_nin, havimp2, getD_set_self' avimp a _ hattr_lt]
      · have hne : a ≠ attr := fun hc => hattr_nin (hc ▸ h)
        obtain ⟨rs, hrs⟩ := hm a h
        refine ⟨rs, ?_⟩
        rw [hrs, havimp2, getD_set_ne' avimp a attr _ (Ne.symm hne)]

theorem impLoop_oob_empty (c : TreeCls) (right : Nat) (attr : Nat) (rest : List Nat)
    (avimp : List ℚ) (r : Rng) :
    impLoop [] c right (attr :: rest) avimp r = .error () := by
  rw [impLoop]
  simp

/-- C4.  Out-of-bag permutation importance, per `_importanceAcu` iteration:
the out-of-bag index list contains exactly the indices below `n` missing
from the bootstrap selection; for every feature in the trained tree's
split set (and only those — `presl`), `avimp[attr]` grows by
`(right - rightimp)/len(oob)` where `right` counts correctly classified
out-of-bag instances and `rightimp` counts them after the feature's
values are permuted (by the generator state reached at that feature);
and a completed `_importanceAcu` call grows `_acu` by `trees`. -/
theorem importance_oob_permutation :
    (∀ (n : Nat) (sel : List Nat) (x : Nat),
      x ∈ oobIndices n sel ↔ x < n ∧ x ∉ sel) ∧
    (∀ (learner : ScoreLearner) (instances : List Inst) (avimp : List ℚ) (r : Rng),
      stepOOB instances r ≠ [] →
      (∀ a ∈ preslOf (stepCla learner instances r).1.tree, a < avimp.length) →
      ∃ avimp' r',
        importanceTreeStep learner instances avimp r = .ok (avimp', r') ∧
        avimp'.length = avimp.length ∧
        (∀ a, a ∉ preslOf (stepCla learner instances r).1.tree →
          avimp'.getD a 0 = avimp.getD a 0) ∧
        (∀ a ∈ preslOf (stepCla learner instances r).1.tree, ∃ rs : Rng,
          avimp'.getD a 0 = avimp.getD a 0 +
            ((numRight (stepOOB instances r) (stepCla learner instances r).1 : ℚ) -
              ((numRightMix (stepOOB instances r) (stepCla learner instances r).1 a rs).1 : ℚ)) /
              ((stepOOB instances r).length : ℚ))) ∧
    (∀ (learner : ScoreLearner) (instances : List Inst) (trees : Nat)
        (avimp : List ℚ) (acu : Nat) (r : Rng) (res : List ℚ × Nat × Rng),
      importanceAcu learner instances trees avimp acu r = .ok res →
      res.2.1 = acu + trees) := by
  refine ⟨oobIndices_mem, ?_, ?_⟩
  · intro learner instances avimp r hoob hbound
    have hnodup : (preslOf (stepCla learner instances r).1.tree).Nodup :=
      (presentInTree (stepCla learner instances r).1.tree).sort_nodup _
    obtain ⟨avimp', r', heq, hlen, hnm, hm⟩ :=
      impLoop_spec (stepOOB instances r) (stepCla learner instances r).1
        (numRight (stepOOB instances r) (stepCla learner instances r).1)
        (preslOf (stepCla learner instances r).1.tree) avimp
        (stepCla learner instances r).2 hnodup hoob hbound
    exact ⟨avimp', r', heq, hlen, hnm, hm⟩
  · intro learner instances trees avimp acu r res hok
    rw [importanceAcu] at hok
    cases himp : importanceLoop learner instances trees avimp r with
    | error e => rw [himp] at hok; exact absurd hok (by simp)
    | ok p =>
      rw [himp] at hok
      cases p with
      | mk avimp' r' =>
        simp only [Except.ok.injEq] at hok
        rw [← hok]

/-- C4 witness: one instance pool of two items where the bootstrap
selection `[0, 0]` leaves instance 1 out of bag, and the learner returns
a stump splitting on feature 0. -/
theorem importance_oob_permutation_witness :
    (1 ∈ oobIndices 2 [0, 0] ↔ 1 < 2 ∧ 1 ∉ [0, 0]) ∧
    (∃ avimp' r',
      importanceTreeStep
        (fun _ r => (TreeCls.mk (fun _ => 0) (TNode.node 0 []), r))
        [Inst.mk [5] 0, Inst.mk [7] 1] [0, 0]
        (Rng.mk (fun _ => 0) 0) = .ok (avimp', r') ∧
      avimp'.length = 2 ∧
      (∀ a, a ∉ preslOf (TNode.node 0 []) →
        avimp'.getD a 0 = ([0, 0] : List ℚ).getD a 0) ∧
      (∀ a ∈ preslOf (TNode.node 0 []), ∃ rs : Rng,
        avimp'.getD a 0 = ([0, 0] : List ℚ).getD a 0 +
          ((numRight (stepOOB [Inst.mk [5] 0, Inst.mk [7] 1] (Rng.mk (fun _ => 0) 0))
              (TreeCls.mk (fun _ => 0) (TNode.node 0 [])) : ℚ) -
            ((numRightMix (stepOOB [Inst.mk [5] 0, Inst.mk [7] 1] (Rng.mk (fun _ => 0) 0))
              (TreeCls.mk (fun _ => 0) (TNode.node 0 [])) a rs).1 : ℚ)) /
            ((stepOOB [Inst.mk [5] 0, Inst.mk [7] 1] (Rng.mk (fun _ => 0) 0)).length : ℚ))) := by
  constructor
  · exact importance_oob_permutation.1 2 [0, 0] 1
  · exact importance_oob_permutation.2.1
      (fun _ r => (TreeCls.mk (fun _ => 0) (TNode.node 0 []), r))
      [Inst.mk [5] 0, Inst.mk [7] 1] [0, 0] (Rng.mk (fun _ => 0) 0)
      (by decide)
      (by
        have h : (stepCla (fun _ r => (TreeCls.mk (fun _ => 0) (TNode.node 0 []), r))
            [Inst.mk [5] 0, Inst.mk [7] 1] (Rng.mk (fun _ => 0) 0)).1.tree =
              TNode.node 0 [] := rfl
        rw [h]
        simp [preslOf, presentInTree, presentInTreeList, Finset.sort_singleton])

/-- C9.  The feature-importance computation is partial: when the first
iteration's bootstrap selection contains every index in
`range(len(instances))` (so `_getOOB` returns the empty list) while the
trained tree splits on at least one feature, the update
`avimp[attr] += (right - rightimp)/len(oob)` divides by zero and
`_importanceAcu` raises `ZeroDivisionError`. -/
theorem importance_zero_division (learner : ScoreLearner) (instances : List Inst)
    (trees : Nat) (avimp : List ℚ) (acu : Nat) (r : Rng)
    (hcover : ∀ x < instances.length, x ∈ (stepSel instances r).1)
    (hsplit : preslOf (stepCla learner instances r).1.tree ≠ [])
    (htrees : 0 < trees) :
    importanceAcu learner instances trees avimp acu r = .error () := by
  obtain ⟨t, rfl⟩ : ∃ t, trees = t + 1 := ⟨trees - 1, by omega⟩
  have hoobnil : stepOOB instances r = [] := by
    rw [stepOOB, getOOB]
    have hidx : oobIndices instances.length (stepSel instances r).1 = [] := by
      rw [oobIndices, List.filter_eq_nil_iff]
      intro x hx
      simp only [List.mem_range] at hx
      simp [hcover x hx]
    rw [hidx]
    rfl
  obtain ⟨attr, rest, hpr⟩ := List.exists_cons_of_ne_nil hsplit
  have hstep : importanceTreeStep learner instances avimp r = .error () := by
    rcases hc : stepCla learner instances r with ⟨cla, r2⟩
    rw [hc] at hpr
    simp only [importanceTreeStep, hc, hoobnil]
    have hpr' : preslOf cla.tree = attr :: rest := by simpa using hpr
    rw [hpr']
    exact impLoop_oob_empty _ _ attr rest avimp _
  have hloop : importanceLoop learner instances (t + 1) avimp r = .error () := by
    rw [importanceLoop, hstep]
  rw [importanceAcu, hloop]

/-- C9 witness: a single instance (`n = 1`) forces the bootstrap selection
`[0]` to cover the whole index range, and a learner returning a stump
splitting on feature 0 makes the division by `len(oob) = 0` unavoidable. -/
theorem importance_zero_division_witness :
    importanceAcu (fun _ r => (TreeCls.mk (fun _ => 0) (TNode.node 0 []), r))
      [Inst.mk [0] 0] 1 [0] 0 (randomRandom 0) = .error () :=
  importance_zero_division (fun _ r => (TreeCls.mk (fun _ => 0) (TNode.node 0 []), r))
    [Inst.mk [0] 0] 1 [0] 0 (randomRandom 0)
    (by decide)
    (by
      have h : (stepCla (fun _ r => (TreeCls.mk (fun _ => 0) (TNode.node 0 []), r))
          [Inst.mk [0] 0] (randomRandom 0)).1.tree = TNode.node 0 [] := rfl
      rw [h]
      simp [preslOf, presentInTree, presentInTreeList, Finset.sort_singleton])
    (by decide)

/-- C5 witness: a constructor with 4 candidates and `attributes` unset
chooses `int(sqrt(4)) = 2` and keeps it on the next call. -/
theorem split_subset_mask_witness :
    ((SplitCon.mk none (randomRandom 0)).call [true, true, true, true]).1.count 1 = 2 ∧
    (((SplitCon.mk none (randomRandom 0)).call
        [true, true, true, true]).2.call [true, true]).2.attributes = some 2 := by
  have hsq : Nat.sqrt [true, true, true, true].length = 2 := by
    have : [true, true, true, true].length = 2 * 2 := by simp
    rw [this, Nat.sqrt_eq]
  refine ⟨?_, ?_⟩
  · have h := (split_subset_mask (SplitCon.mk none (randomRandom 0))
      [true, true, true, true]).2.1 rfl
    rw [hsq] at h
    exact h.1
  · have h := (split_subset_mask (SplitCon.mk none (randomRandom 0))
      [true, true, true, true]).2.2 (by decide) rfl [true, true]
    rw [hsq] at h
    exact h

end Forest

namespace Xtest

theorem processReport_ok (es : Nat) (rep : Option String) (es' : Nat) (result : String)
    (h : processReport es rep = .ok (es', result)) :
    result ∈ states ∧ es' = max es (states.indexOf result) := by
  rw [processReport] at h
  cases hro : readOutcome rep with
  | error e => rw [hro] at h; exact absurd h (by simp)
  | ok r0 =>
    rw [hro] at h
    by_cases hmem : r0 ∈ states
    · simp only [stateIndex] at h
      rw [if_pos hmem] at h
      simp only [Except.ok.injEq, Prod.mk.injEq] at h
      obtain ⟨h1, h2⟩ := h
      subst h2
      exact ⟨hmem, h1.symm⟩
    · simp only [stateIndex] at h
      rw [if_neg hmem] at h
      exact absurd h (by simp)

theorem processScripts_spec :
    ∀ (reps : List (Option String)) (es esF : Nat) (results : List String),
      processScripts es reps = .ok (esF, results) →
      (∀ r ∈ results, r ∈ states) ∧
      esF = results.foldl (fun e r => max e (states.indexOf r)) es ∧
      es ≤ esF := by
  intro reps
  induction reps with
  | nil =>
    intro es esF results h
    rw [processScripts] at h
    simp only [Except.ok.injEq, Prod.mk.injEq] at h
    obtain ⟨h1, h2⟩ := h
    subst h1; subst h2
    exact ⟨by simp, rfl, Nat.le_refl es⟩
  | cons rep reps ih =>
    intro es esF results h
    rw [processScripts] at h
    split at h
    · exact absurd h (by simp)
    · rename_i es' result hpr
      split at h
      · exact absurd h (by simp)
      · rename_i esF' results' hps
        simp only [Except.ok.injEq, Prod.mk.injEq] at h
        obtain ⟨h1, h2⟩ := h
        subst h1; subst h2
        obtain ⟨hmem, hidx⟩ := processReport_ok es rep es' result hpr
        obtain ⟨hall, hfold, hle⟩ := ih es' esF' results' hps
        refine ⟨?_, ?_, ?_⟩
        · intro r hr
          rcases List.mem_cons.mp hr with hr | hr
          · subst hr; exact hmem
          · exact hall r hr
        · rw [List.foldl_cons, ← hidx]
          exact hfold
        · calc es ≤ es' := hidx ▸ Nat.le_max_left es _
            _ ≤ esF' := hle

/-- C6 counterexample: with the report file missing, line 134's `open`
raises `IOError` before any outcome is produced — the script's outcome is
not `"crash"` as the claim states. -/
theorem xtest_missing_report_not_crash :
    readOutcome none = .error () ∧ readOutcome none ≠ .ok "crash" :=
  ⟨rfl, fun h => Except.noConfusion h⟩

/-- C6 (amended).  After a script runs, the harness reads the first line
of `xtest1_report`; an empty or blank first line yields the outcome
`"crash"`, while a *missing* report file raises `IOError` (it does not
yield `"crash"`); every successfully processed script's outcome is one of
the five states `OK, changed, random, error, crash`, and the global
`error_status` equals the running maximum of the outcome indices in that
state list, so it never decreases. -/
theorem xtest_outcome_classification :
    (∀ line, rstrip line = "" → readOutcome (some line) = .ok "crash") ∧
    readOutcome none = .error () ∧
    (∀ (reps : List (Option String)) (es esF : Nat) (results : List String),
      processScripts es reps = .ok (esF, results) →
      (∀ r ∈ results, r ∈ states) ∧
      esF = results.foldl (fun e r => max e (states.indexOf r)) es ∧
      es ≤ esF) := by
  refine ⟨?_, rfl, processScripts_spec⟩
  intro line hline
  rw [readOutcome]
  simp [hline]

/-- C6 witness: a blank-line report classifies as `"crash"` (index 4), an
`"error"` report as index 3, and the threaded `error_status` is their
running maximum. -/
theorem xtest_outcome_classification_witness :
    readOutcome (some " ") = .ok "crash" ∧
    ((∀ r ∈ ["error", "crash"], r ∈ states) ∧
      (4 : Nat) = (["error", "crash"].foldl (fun e r => max e (states.indexOf r)) 0) ∧
      (0 : Nat) ≤ 4) := by
  constructor
  · exact xtest_outcome_classification.1 " " (by decide)
  · exact xtest_outcome_classification.2.2 [some "error", some " "] 0 4
      ["error", "crash"] (by rfl)

/-- C7.  Persisted result files follow the naming scheme
`<outputsdir>/<name>.<platform>.<pyversion>.<state>.txt`; the last state
of a script with an available previous result is found by testing the
states in the fixed order `OK, changed, random, error, crash` and taking
the first whose file exists, falling back to `"random"` when a
`.random1` file exists; and before a re-run exactly the result files for
the states `crash, error, new, changed, random1, random2` are removed. -/
theorem xtest_result_files :
    (∀ o n p v st, resultFile o n p v st =
      o ++ "/" ++ n ++ "." ++ p ++ "." ++ v ++ "." ++ st ++ ".txt") ∧
    (∀ (fs : List String) (o n p v : String) (c j : Bool),
      lastState fs o n p v c j =
        if resultFile o n p v "OK" ∈ fs then some "OK"
        else if resultFile o n p v "changed" ∈ fs then some "changed"
        else if resultFile o n p v "random" ∈ fs then some "random"
        else if resultFile o n p v "error" ∈ fs then some "error"
        else if resultFile o n p v "crash" ∈ fs then some "crash"
        else if resultFile o n p v "random1" ∈ fs then some "random"
        else if c || j then some "OK"
        else none) ∧
    (∀ (fs : List String) (o n p v : String) (f : String),
      f ∈ removeOldResults fs o n p v ↔
        f ∈ fs ∧ ∀ st ∈ removalStates, f ≠ resultFile o n p v st) := by
  refine ⟨fun o n p v st => rfl, ?_, ?_⟩
  · intro fs o n p v c j
    by_cases h1 : resultFile o n p v "OK" ∈ fs <;>
      by_cases h2 : resultFile o n p v "changed" ∈ fs <;>
      by_cases h3 : resultFile o n p v "random" ∈ fs <;>
      by_cases h4 : resultFile o n p v "error" ∈ fs <;>
      by_cases h5 : resultFile o n p v "crash" ∈ fs <;>
      simp [lastState, states, List.find?_cons, h1, h2, h3, h4, h5]
  · intro fs o n p v f
    rw [removeOldResults, List.mem_filter]
    simp only [decide_eq_true_eq]
    constructor
    · rintro ⟨hf, hno⟩
      refine ⟨hf, fun st hst heq => hno ?_⟩
      exact List.mem_map.mpr ⟨st, hst, heq.symm⟩
    · rintro ⟨hf, hno⟩
      refine ⟨hf, fun hmem => ?_⟩
      obtain ⟨st, hst, heq⟩ := List.mem_map.mp hmem
      exact hno st hst heq.symm

/-- C7 witness: with only a `.changed` result file on disk, the last
state found in the fixed order is `"changed"`. -/
theorem xtest_result_files_witness :
    lastState [resultFile "res" "s.py" "linux2" "2.7" "changed"]
      "res" "s.py" "linux2" "2.7" false false = some "changed" := by
  rw [xtest_result_files.2.1 [resultFile "res" "s.py" "linux2" "2.7" "changed"]
    "res" "s.py" "linux2" "2.7" false false]
  decide

end Xtest

namespace Widgets

theorem div_pow_lt_iff (num : ℚ) (k : Nat) :
    num / 1024 ^ k < 1024 ↔ num < 1024 ^ (k + 1) := by
  rw [div_lt_iff₀ (by positivity), ← pow_succ']

/-- C10.  For every non-negative number below `1024^5`, `sizeof_fmt`
returns the value divided down `k` times paired with the `k`-th unit of
`bytes, KB, MB, GB, TB`, where `k` is the first stage at which the
successively divided value drops below `1024.0`; for every number at
least `1024^5` the loop completes without returning and the function
yields `None`. -/
theorem sizeof_fmt_spec :
    (∀ num : ℚ, 0 ≤ num → num < 1024 ^ 5 →
      ∃ k : Fin 5, sizeof_fmt num = some (num / 1024 ^ (k : ℕ), unitNames.get k) ∧
        num < 1024 ^ ((k : ℕ) + 1) ∧
        (∀ j, j < (k : ℕ) → (1024 : ℚ) ^ (j + 1) ≤ num)) ∧
    (∀ num : ℚ, (1024 : ℚ) ^ 5 ≤ num → sizeof_fmt num = none) := by
  have e1 : ∀ num : ℚ, num / 1024 = num / 1024 ^ 1 := fun num => by rw [pow_one]
  have e2 : ∀ (num : ℚ) (k : Nat), num / 1024 ^ k / 1024 = num / 1024 ^ (k + 1) :=
    fun num k => by rw [div_div, ← pow_succ]
  constructor
  · intro num _ h5
    by_cases h1 : num < 1024 ^ 1
    · refine ⟨⟨0, by norm_num⟩, ?_, by simpa using h1, fun j hj => absurd hj (Nat.not_lt_zero j)⟩
      rw [sizeof_fmt]
      simp only [unitNames]
      rw [sizeofFmtGo, if_pos (by simpa using h1)]
      simp
    by_cases h2 : num < 1024 ^ 2
    · refine ⟨⟨1, by norm_num⟩, ?_, by simpa using h2, ?_⟩
      · rw [sizeof_fmt]
        simp only [unitNames]
        rw [sizeofFmtGo, if_neg (by simpa using h1),
          sizeofFmtGo, e1 num, if_pos ((div_pow_lt_iff num 1).mpr (by simpa using h2))]
        rfl
      · intro j hj
        have hj' : j < 1 := hj
        have hj0 : j = 0 := by omega
        subst hj0
        simpa using le_of_not_lt h1
    by_cases h3 : num < 1024 ^ 3
    · refine ⟨⟨2, by norm_num⟩, ?_, by simpa using h3, ?_⟩
      · rw [sizeof_fmt]
        simp only [unitNames]
        rw [sizeofFmtGo, if_neg (by simpa using h1),
          sizeofFmtGo, e1 num, if_neg (by rw [div_pow_lt_iff]; simpa using h2),
          e2 num 1, sizeofFmtGo, if_pos ((div_pow_lt_iff num 2).mpr (by simpa using h3))]
        rfl
      · intro j hj
        have hj' : j < 2 := hj
        clear hj
        interval_cases j
        · simpa using le_of_not_lt h1
        · simpa using le_of_not_lt h2
    by_cases h4 : num < 1024 ^ 4
    · refine ⟨⟨3, by norm_num⟩, ?_, by simpa using h4, ?_⟩
      · rw [sizeof_fmt]
        simp only [unitNames]
        rw [sizeofFmtGo, if_neg (by simpa using h1),
          sizeofFmtGo, e1 num, if_neg (by rw [div_pow_lt_iff]; simpa using h2),
          e2 num 1, sizeofFmtGo, if_neg (by rw [div_pow_lt_iff]; simpa using h3),
          e2 num 2, sizeofFmtGo, if_pos ((div_pow_lt_iff num 3).mpr (by simpa using h4))]
        rfl
      · intro j hj
        have hj' : j < 3 := hj
        clear hj
        interval_cases j
        · simpa using le_of_not_lt h1
        · simpa using le_of_not_lt h2
        · simpa using le_of_not_lt h3
    · refine ⟨⟨4, by norm_num⟩, ?_, by simpa using h5, ?_⟩
      · rw [sizeof_fmt]
        simp only [unitNames]
        rw [sizeofFmtGo, if_neg (by simpa using h1),
          sizeofFmtGo, e1 num, if_neg (by rw [div_pow_lt_iff]; simpa using h2),
          e2 num 1, sizeofFmtGo, if_neg (by rw [div_pow_lt_iff]; simpa using h3),
          e2 num 2, sizeofFmtGo, if_neg (by rw [div_pow_lt_iff]; simpa using h4),
          e2 num 3, sizeofFmtGo, if_pos ((div_pow_lt_iff num 4).mpr (by simpa using h5))]
        rfl
      · intro j hj
        have hj' : j < 4 := hj
        clear hj
        interval_cases j
        · simpa using le_of_not_lt h1
        · simpa using le_of_not_lt h2
        · simpa using le_of_not_lt h3
        · simpa using le_of_not_lt h4
  · intro num h5
    have hk : ∀ k : Nat, k + 1 ≤ 5 → ¬ num / 1024 ^ k < 1024 := by
      intro k hk hlt
      rw [div_pow_lt_iff] at hlt
      have hmono : (1024 : ℚ) ^ (k + 1) ≤ 1024 ^ 5 :=
        pow_le_pow_right₀ (by norm_num) hk
      linarith
    rw [sizeof_fmt]
    simp only [unitNames]
    rw [sizeofFmtGo,
      if_neg (by simpa using hk 0 (by omega)),
      e1 num, sizeofFmtGo, if_neg (hk 1 (by omega)),
      e2 num 1, sizeofFmtGo, if_neg (hk 2 (by omega)),
      e2 num 2, sizeofFmtGo, if_neg (hk 3 (by omega)),
      e2 num 3, sizeofFmtGo, if_neg (hk 4 (by omega)),
      sizeofFmtGo]

/-- C10 witness: `sizeof_fmt` at `2048` chooses the `KB` unit with value
`2`, and at `1024^5` the loop falls through and returns `None`. -/
theorem sizeof_fmt_spec_witness :
    (∃ k : Fin 5, sizeof_fmt 2048 = some (2048 / 1024 ^ (k : ℕ), unitNames.get k) ∧
      (2048 : ℚ) < 1024 ^ ((k : ℕ) + 1) ∧
      (∀ j, j < (k : ℕ) → (1024 : ℚ) ^ (j + 1) ≤ 2048)) ∧
    sizeof_fmt (1024 ^ 5) = none :=
  ⟨sizeof_fmt_spec.1 2048 (by norm_num) (by norm_num),
   sizeof_fmt_spec.2 (1024 ^ 5) (by norm_num)⟩

end Widgets
